import Mathlib

/-!
Shallow embedding of the statechart engine core (davidkpiano/estado):
value/path algebra, context assignment, history values, action builders,
and the event-type resolver, together with spec-modelled fragments for the
parts of the engine (transition stepper, interpreter scheduling) whose code
is not part of this source snapshot.
-/

set_option maxRecDepth 4000

namespace Estado

/-- A hierarchical state value: either a leaf string naming an atomic
substate, or a JS object mapping region keys to sub-values.  JS objects
preserve key insertion order, so objects are association lists. -/
inductive StateValue where
  | str : String → StateValue
  | obj : List (String × StateValue) → StateValue

namespace StateValue

mutual

/-- Boolean structural equality of state values. -/
def beq : StateValue → StateValue → Bool
  | .str a, .str b => a == b
  | .obj a, .obj b => beqList a b
  | .str _, .obj _ => false
  | .obj _, .str _ => false

/-- Boolean structural equality of object association lists. -/
def beqList : List (String × StateValue) → List (String × StateValue) → Bool
  | [], [] => true
  | (k, v) :: r, (k', v') :: r' => k == k' && beq v v' && beqList r r'
  | [], _ :: _ => false
  | _ :: _, [] => false

end

mutual

theorem beq_iff_eq : ∀ a b : StateValue, beq a b = true ↔ a = b
  | .str a, .str b => by simp [beq]
  | .obj a, .obj b => by simp [beq, beqList_iff_eq a b]
  | .str _, .obj _ => by simp [beq]
  | .obj _, .str _ => by simp [beq]

theorem beqList_iff_eq : ∀ a b : List (String × StateValue),
    beqList a b = true ↔ a = b
  | [], [] => by simp [beqList]
  | (k, v) :: r, (k', v') :: r' => by
      simp [beqList, beq_iff_eq v v', beqList_iff_eq r r', Prod.ext_iff,
        and_assoc]
  | [], _ :: _ => by simp [beqList]
  | _ :: _, [] => by simp [beqList]

end

instance : DecidableEq StateValue := fun a b =>
  decidable_of_iff (beq a b = true) (beq_iff_eq a b)

/-- JS property lookup on an object association list (first match). -/
def lookup (kvs : List (String × StateValue)) (k : String) : Option StateValue :=
  match kvs with
  | [] => none
  | (k', v) :: rest => if k' = k then some v else lookup rest k

/-- JS property assignment `o[k] = v`: updates an existing key in place,
otherwise appends (JS objects keep insertion order). -/
def setKey (kvs : List (String × StateValue)) (k : String) (v : StateValue) :
    List (String × StateValue) :=
  match kvs with
  | [] => [(k, v)]
  | (k', v') :: rest => if k' = k then (k', v) :: rest else (k', v') :: setKey rest k v

/-- JS truthiness of a state value: the empty string is falsy, any other
string and any object (including `{}`) is truthy. -/
def truthy : StateValue → Bool
  | .str s => s ≠ ""
  | .obj _ => true

end StateValue

open StateValue

mutual

/-- `toStatePaths` (src/src/graph.ts, utils part): enumerates the leaf paths
of a state value.  The source first checks `if (!stateValue) return [[]]`;
of our values only the empty string is falsy (objects are truthy), so it
yields the single empty path.  Any other string yields its singleton path;
an object flattens, key by key, the paths of each sub-value prefixed with
the key, except that a sub-value that is an empty object yields just the
bare key path. -/
def toStatePaths : StateValue → List (List String)
  | .str s => if s = "" then [[]] else [[s]]
  | .obj kvs => toStatePathsList kvs

/-- The `keys(stateValue).map … |> flatten` loop of `toStatePaths`. -/
def toStatePathsList : List (String × StateValue) → List (List String)
  | [] => []
  | (k, sv) :: rest =>
      (match sv with
       | .obj [] => [[k]]
       | sv => (toStatePaths sv).map (fun sp => k :: sp)) ++ toStatePathsList rest

end

/-- The marker-walking loop of `pathsToStateValue` for one path: starting
from object `o`, walk the path; at index `length - 2` assign the final
element as a string leaf and stop; otherwise `marker[k] = marker[k] || {}`
and descend.  Descending into a string leaves it unchanged (in JS, property
writes on a string primitive are silent no-ops; this branch is unreachable
from path sets produced by `toStatePaths` on well-formed values). -/
def insertPath : List (String × StateValue) → List String →
    List (String × StateValue)
  | o, [] => o
  | o, [k] =>
      setKey o k
        (match lookup o k with
         | some v => if v.truthy then v else .obj []
         | none => .obj [])
  | o, [k, k'] => setKey o k (.str k')
  | o, k :: k' :: k'' :: rest =>
      match
        (match lookup o k with
         | some v => if v.truthy then v else .obj []
         | none => .obj []) with
      | .obj m => setKey o k (.obj (insertPath m (k' :: k'' :: rest)))
      | .str s => setKey o k (.str s)
  termination_by _ p => p.length

/-- `pathsToStateValue` (src/src/graph.ts, utils part): a single
single-element path collapses to a string; otherwise each path is inserted
into an initially empty object. -/
def pathsToStateValue (paths : List (List String)) : StateValue :=
  match paths with
  | [[k]] => .str k
  | paths => .obj (paths.foldl insertPath [])

theorem lookup_cons (k' : String) (v : StateValue) (rest : List (String × StateValue))
    (k : String) :
    lookup ((k', v) :: rest) k = if k' = k then some v else lookup rest k := rfl

theorem setKey_cons (k' : String) (v' : StateValue) (rest : List (String × StateValue))
    (k : String) (v : StateValue) :
    setKey ((k', v') :: rest) k v =
      if k' = k then (k', v) :: rest else (k', v') :: setKey rest k v := rfl

theorem lookup_append_of_none (acc l : List (String × StateValue)) (k : String)
    (h : lookup acc k = none) : lookup (acc ++ l) k = lookup l k := by
  induction acc with
  | nil => rfl
  | cons p rest ih =>
      obtain ⟨k', v⟩ := p
      rw [lookup_cons] at h
      by_cases hk : k' = k
      · simp [hk] at h
      · rw [List.cons_append, lookup_cons, if_neg hk]
        exact ih (by simpa [hk] using h)

theorem lookup_append_single (acc : List (String × StateValue)) (k : String)
    (w : StateValue) (h : lookup acc k = none) :
    lookup (acc ++ [(k, w)]) k = some w := by
  rw [lookup_append_of_none acc _ k h, lookup_cons, if_pos rfl]

theorem setKey_of_none (acc : List (String × StateValue)) (k : String)
    (v : StateValue) (h : lookup acc k = none) : setKey acc k v = acc ++ [(k, v)] := by
  induction acc with
  | nil => rfl
  | cons p rest ih =>
      obtain ⟨k', v'⟩ := p
      rw [lookup_cons] at h
      by_cases hk : k' = k
      · simp [hk] at h
      · rw [setKey_cons, if_neg hk, List.cons_append, ih (by simpa [hk] using h)]

theorem setKey_append_of_none (acc : List (String × StateValue)) (k : String)
    (w v : StateValue) (h : lookup acc k = none) :
    setKey (acc ++ [(k, w)]) k v = acc ++ [(k, v)] := by
  induction acc with
  | nil => simp [setKey]
  | cons p rest ih =>
      obtain ⟨k', v'⟩ := p
      rw [lookup_cons] at h
      by_cases hk : k' = k
      · simp [hk] at h
      · rw [List.cons_append, setKey_cons, if_neg hk,
          ih (by simpa [hk] using h), List.cons_append]

/-- Every path produced by the key loop of `toStatePaths` is nonempty. -/
theorem mem_toStatePathsList_ne_nil (kvs : List (String × StateValue)) :
    ∀ p ∈ toStatePathsList kvs, p ≠ [] := by
  induction kvs with
  | nil => intro p hp; simp [toStatePathsList] at hp
  | cons e rest ih =>
      obtain ⟨k, sv⟩ := e
      intro p hp
      rcases sv with s | kvs
      · simp only [toStatePathsList] at hp
        rcases List.mem_append.mp hp with hp | hp
        · simp only [List.mem_map] at hp
          obtain ⟨q, _, rfl⟩ := hp; simp
        · exact ih p hp
      · rcases kvs with _ | ⟨e₀, es⟩
        · simp only [toStatePathsList] at hp
          rcases List.mem_append.mp hp with hp | hp
          · simp at hp; simp [hp]
          · exact ih p hp
        · simp only [toStatePathsList] at hp
          rcases List.mem_append.mp hp with hp | hp
          · simp only [List.mem_map] at hp
            obtain ⟨q, _, rfl⟩ := hp; simp
          · exact ih p hp

/-- Keys of an association list are pairwise distinct (JS objects cannot
hold duplicate keys). -/
def keysNodup : List (String × StateValue) → Bool
  | [] => true
  | (k, _) :: rest => !(rest.any (fun p => p.1 == k)) && keysNodup rest

mutual

/-- A well-formed state value: leaves are nonempty strings naming atomic
substates (the empty string is falsy in JS, so the falsy guard of
`toStatePaths` collapses it), and every object is nonempty with distinct
keys and well-formed sub-values. -/
def wellFormed : StateValue → Bool
  | .str s => s != ""
  | .obj kvs => !kvs.isEmpty && keysNodup kvs && wellFormedList kvs

/-- All values of an association list are well-formed. -/
def wellFormedList : List (String × StateValue) → Bool
  | [] => true
  | (_, sv) :: rest => wellFormed sv && wellFormedList rest

end

theorem wellFormed_obj_iff (kvs : List (String × StateValue)) :
    wellFormed (.obj kvs) = true ↔
      kvs ≠ [] ∧ keysNodup kvs = true ∧ wellFormedList kvs = true := by
  rw [wellFormed]
  simp [List.isEmpty_iff, and_assoc]

theorem wellFormed_str_iff (s : String) :
    wellFormed (.str s) = true ↔ s ≠ "" := by
  rw [wellFormed]
  simp

/-- Every path of a well-formed state value is nonempty. -/
theorem mem_toStatePaths_ne_nil (sv : StateValue)
    (hwf : wellFormed sv = true) : ∀ p ∈ toStatePaths sv, p ≠ [] := by
  match sv with
  | .str s =>
      intro p hp
      rw [toStatePaths, if_neg ((wellFormed_str_iff s).mp hwf)] at hp
      simp at hp
      simp [hp]
  | .obj kvs =>
      intro p hp
      exact mem_toStatePathsList_ne_nil kvs p (by rwa [toStatePaths] at hp)

theorem wellFormedList_cons_iff (k : String) (sv : StateValue)
    (rest : List (String × StateValue)) :
    wellFormedList ((k, sv) :: rest) = true ↔
      wellFormed sv = true ∧ wellFormedList rest = true := by
  rw [wellFormedList]
  simp

theorem keysNodup_cons_iff (k : String) (v : StateValue)
    (rest : List (String × StateValue)) :
    keysNodup ((k, v) :: rest) = true ↔
      (∀ p ∈ rest, p.1 ≠ k) ∧ keysNodup rest = true := by
  rw [keysNodup]
  simp

/-- A well-formed sub-value is never the empty object, so the key loop of
`toStatePaths` always takes the path-prefixing branch. -/
theorem toStatePathsList_cons_of_wf (k : String) (sv : StateValue)
    (rest : List (String × StateValue)) (h : wellFormed sv = true) :
    toStatePathsList ((k, sv) :: rest) =
      (toStatePaths sv).map (fun sp => k :: sp) ++ toStatePathsList rest := by
  rcases sv with s | kvs
  · rfl
  · rcases kvs with _ | ⟨e₀, es⟩
    · rw [wellFormed_obj_iff] at h
      exact absurd rfl h.1
    · rfl

theorem toStatePaths_ne_nil_aux (n : Nat) :
    ∀ sv : StateValue, sizeOf sv ≤ n → wellFormed sv = true →
      toStatePaths sv ≠ [] := by
  induction n using Nat.strong_induction_on with
  | _ n ih =>
      intro sv hsz h
      rcases sv with s | kvs
      · rw [toStatePaths]
        split <;> simp
      · rcases kvs with _ | ⟨⟨k, sv'⟩, rest⟩
        · rw [wellFormed_obj_iff] at h
          exact absurd rfl h.1
        · obtain ⟨-, -, hwfl⟩ := (wellFormed_obj_iff _).mp h
          obtain ⟨hwf', -⟩ := (wellFormedList_cons_iff _ _ _).mp hwfl
          rw [toStatePaths, toStatePathsList_cons_of_wf _ _ _ hwf']
          have hlt : sizeOf sv' < n := by
            simp at hsz; omega
          have hne := ih (sizeOf sv') hlt sv' le_rfl hwf'
          simp [hne]

/-- A well-formed state value has at least one leaf path. -/
theorem toStatePaths_ne_nil (sv : StateValue) (h : wellFormed sv = true) :
    toStatePaths sv ≠ [] :=
  toStatePaths_ne_nil_aux (sizeOf sv) sv le_rfl h

/-- Every leaf path of a well-formed object value has length at least two
(one key plus a nonempty sub-path). -/
theorem mem_toStatePathsList_length (kvs : List (String × StateValue))
    (hwfl : wellFormedList kvs = true) :
    ∀ p ∈ toStatePathsList kvs, 2 ≤ p.length := by
  induction kvs with
  | nil => intro p hp; simp [toStatePathsList] at hp
  | cons e rest ih =>
      obtain ⟨k, sv⟩ := e
      obtain ⟨hwf, hrest⟩ := (wellFormedList_cons_iff _ _ _).mp hwfl
      intro p hp
      rw [toStatePathsList_cons_of_wf _ _ _ hwf] at hp
      rcases List.mem_append.mp hp with hp | hp
      · simp only [List.mem_map] at hp
        obtain ⟨q, hq, rfl⟩ := hp
        have := mem_toStatePaths_ne_nil sv hwf q hq
        rcases q with _ | ⟨a, r⟩
        · exact absurd rfl this
        · simp
      · exact ih hrest p hp

theorem lookup_append_single_of_ne (acc : List (String × StateValue))
    (k k' : String) (sv : StateValue) (hne : k' ≠ k)
    (h : lookup acc k' = none) : lookup (acc ++ [(k, sv)]) k' = none := by
  rw [lookup_append_of_none _ _ _ h, lookup_cons, if_neg (Ne.symm hne)]
  rfl

/-- Once a key holds an object, inserting further deep paths under that key
only grows that object in place. -/
theorem foldl_insertPath_deep (qs : List (List String)) :
    ∀ (acc : List (String × StateValue)) (m : List (String × StateValue))
      (k : String), (∀ q ∈ qs, 2 ≤ q.length) → lookup acc k = none →
      List.foldl insertPath (acc ++ [(k, .obj m)]) (qs.map (fun q => k :: q)) =
        acc ++ [(k, .obj (List.foldl insertPath m qs))] := by
  induction qs with
  | nil => intro acc m k _ _; simp
  | cons q qs ih =>
      intro acc m k hlen hk
      obtain ⟨a, b, r, rfl⟩ : ∃ a b r, q = a :: b :: r := by
        have h2 := hlen q (List.mem_cons_self q qs)
        rcases q with _ | ⟨a, _ | ⟨b, r⟩⟩
        · simp at h2
        · simp at h2
        · exact ⟨a, b, r, rfl⟩
      simp only [List.map_cons, List.foldl_cons]
      rw [insertPath, lookup_append_single _ _ _ hk]
      simp only [truthy, if_true]
      rw [setKey_append_of_none _ _ _ _ hk]
      exact ih _ _ _ (fun q hq => hlen q (List.mem_cons_of_mem _ hq)) hk

theorem wellFormedList_mem (kvs : List (String × StateValue))
    (h : wellFormedList kvs = true) :
    ∀ k sv, (k, sv) ∈ kvs → wellFormed sv = true := by
  induction kvs with
  | nil => intro k sv hm; simp at hm
  | cons e rest ih =>
      obtain ⟨k', sv'⟩ := e
      obtain ⟨hwf, hrest⟩ := (wellFormedList_cons_iff _ _ _).mp h
      intro k sv hm
      rcases List.mem_cons.mp hm with hm | hm
      · cases hm; exact hwf
      · exact ih hrest k sv hm

/-- Inserting the paths of a key-by-key well-formed object list into an
accumulator that holds none of its keys appends exactly the original
entries, in order. -/
theorem foldl_insertPath_list :
    ∀ kvs : List (String × StateValue),
      (∀ k sv, (k, sv) ∈ kvs → ∀ acc, lookup acc k = none →
        List.foldl insertPath acc ((toStatePaths sv).map (fun sp => k :: sp)) =
          acc ++ [(k, sv)]) →
      keysNodup kvs = true → wellFormedList kvs = true →
      ∀ acc, (∀ k v, (k, v) ∈ kvs → lookup acc k = none) →
        List.foldl insertPath acc (toStatePathsList kvs) = acc ++ kvs := by
  intro kvs
  induction kvs with
  | nil => intro _ _ _ acc _; simp [toStatePathsList]
  | cons e rest ih =>
      obtain ⟨k, sv⟩ := e
      intro hA hnd hwfl acc hfresh
      obtain ⟨hwf, hrest⟩ := (wellFormedList_cons_iff _ _ _).mp hwfl
      obtain ⟨hkne, hndrest⟩ := (keysNodup_cons_iff _ _ _).mp hnd
      rw [toStatePathsList_cons_of_wf _ _ _ hwf, List.foldl_append]
      rw [hA k sv (List.mem_cons_self (k, sv) rest) acc
        (hfresh k sv (List.mem_cons_self (k, sv) rest))]
      rw [ih (fun k' sv' hm => hA k' sv' (List.mem_cons_of_mem _ hm))
        hndrest hrest (acc ++ [(k, sv)]) ?fresh]
      · simp
      case fresh =>
        intro k' v' hm
        refine lookup_append_single_of_ne _ _ _ _ ?_
          (hfresh k' v' (List.mem_cons_of_mem _ hm))
        exact fun heq => (hkne (k', v') hm) heq

theorem foldl_insertPath_toStatePaths_aux (n : Nat) :
    ∀ sv : StateValue, sizeOf sv ≤ n → ∀ acc k, wellFormed sv = true →
      lookup acc k = none →
      List.foldl insertPath acc ((toStatePaths sv).map (fun sp => k :: sp)) =
        acc ++ [(k, sv)] := by
  induction n using Nat.strong_induction_on with
  | _ n ih =>
      intro sv hsz acc k hwf hk
      rcases sv with s | kvs
      · rw [toStatePaths, if_neg ((wellFormed_str_iff s).mp hwf)]
        simp only [List.map_cons, List.map_nil, List.foldl_cons, List.foldl_nil]
        rw [insertPath]
        exact setKey_of_none acc k _ hk
      · obtain ⟨hne, hnd, hwfl⟩ := (wellFormed_obj_iff _).mp hwf
        have hsub : ∀ k' sv', (k', sv') ∈ kvs → ∀ acc',
            lookup acc' k' = none →
            List.foldl insertPath acc'
                ((toStatePaths sv').map (fun sp => k' :: sp)) =
              acc' ++ [(k', sv')] := by
          intro k' sv' hmem acc' hk'
          have h1 := List.sizeOf_lt_of_mem hmem
          have hlt : sizeOf sv' < n := by
            simp at hsz h1 ⊢; omega
          exact ih (sizeOf sv') hlt sv' le_rfl acc' k'
            (wellFormedList_mem kvs hwfl k' sv' hmem) hk'
        have hB : List.foldl insertPath [] (toStatePathsList kvs) = kvs := by
          simpa using foldl_insertPath_list kvs hsub hnd hwfl []
            (fun _ _ _ => rfl)
        have hpne : toStatePathsList kvs ≠ [] := by
          have := toStatePaths_ne_nil (.obj kvs) hwf
          rwa [toStatePaths] at this
        have hlen : ∀ q ∈ toStatePathsList kvs, 2 ≤ q.length :=
          mem_toStatePathsList_length kvs hwfl
        rw [toStatePaths]
        obtain ⟨q₀, qs, hq⟩ : ∃ q₀ qs, toStatePathsList kvs = q₀ :: qs := by
          rcases h' : toStatePathsList kvs with _ | ⟨q₀, qs⟩
          · exact absurd h' hpne
          · exact ⟨q₀, qs, rfl⟩
        rw [hq]
        obtain ⟨a, b, r, rfl⟩ : ∃ a b r, q₀ = a :: b :: r := by
          have h2 := hlen q₀ (hq ▸ List.mem_cons_self q₀ qs)
          rcases q₀ with _ | ⟨a, _ | ⟨b, r⟩⟩
          · simp at h2
          · simp at h2
          · exact ⟨a, b, r, rfl⟩
        simp only [List.map_cons, List.foldl_cons]
        rw [insertPath, hk]
        simp only []
        rw [setKey_of_none acc k _ hk]
        rw [foldl_insertPath_deep qs acc _ k
          (fun q hq' => hlen q (hq ▸ List.mem_cons_of_mem _ hq')) hk]
        rw [show List.foldl insertPath (insertPath [] (a :: b :: r)) qs =
            List.foldl insertPath [] ((a :: b :: r) :: qs) from rfl]
        rw [← hq, hB]

/-- Inserting all leaf paths of a well-formed value under a fresh key `k`
appends exactly `(k, value)` to the accumulator. -/
theorem foldl_insertPath_toStatePaths (sv : StateValue) (acc :
    List (String × StateValue)) (k : String) (hwf : wellFormed sv = true)
    (hk : lookup acc k = none) :
    List.foldl insertPath acc ((toStatePaths sv).map (fun sp => k :: sp)) =
      acc ++ [(k, sv)] :=
  foldl_insertPath_toStatePaths_aux (sizeOf sv) sv le_rfl acc k hwf hk

/-- Folding all leaf paths of a well-formed object into the empty object
rebuilds exactly the original association list. -/
theorem foldl_insertPath_build (kvs : List (String × StateValue))
    (hnd : keysNodup kvs = true) (hwfl : wellFormedList kvs = true) :
    List.foldl insertPath [] (toStatePathsList kvs) = kvs := by
  simpa using foldl_insertPath_list kvs
    (fun k sv hm acc hk => foldl_insertPath_toStatePaths sv acc k
      (wellFormedList_mem kvs hwfl k sv hm) hk)
    hnd hwfl [] (fun _ _ _ => rfl)

/-- Round trip: `pathsToStateValue` is a left inverse of `toStatePaths` on
well-formed state values. -/
theorem pathsToStateValue_toStatePaths (v : StateValue)
    (h : wellFormed v = true) : pathsToStateValue (toStatePaths v) = v := by
  rcases v with s | kvs
  · rw [toStatePaths, if_neg ((wellFormed_str_iff s).mp h)]
    rfl
  · obtain ⟨hne, hnd, hwfl⟩ := (wellFormed_obj_iff _).mp h
    have hlen : ∀ q ∈ toStatePathsList kvs, 2 ≤ q.length :=
      mem_toStatePathsList_length kvs hwfl
    rw [toStatePaths, pathsToStateValue.eq_def]
    split
    · rename_i k heq
      have := hlen [k] (heq ▸ List.mem_cons_self [k] [])
      simp at this
    · exact congrArg StateValue.obj (foldl_insertPath_build kvs hnd hwfl)

/-! ### Value and path algebra: parsing and the match predicate -/

/-- The machine's state delimiter (constants.ts; the spec fixes the default
to the one-character string `.`, which we model as a character). -/
def STATE_DELIMITER : Char := '.'

/-- JS `String.prototype.split` with a one-character separator, on the
character list of the string: `"" → [""]`, `"a.b" → ["a","b"]`,
`"." → ["",""]`. -/
def splitChar (c : Char) : List Char → List (List Char)
  | [] => [[]]
  | a :: rest =>
      match splitChar c rest with
      | [] => [[]]
      | g :: gs => if a = c then [] :: g :: gs else (a :: g) :: gs

theorem splitChar_ne_nil (c : Char) (s : List Char) : splitChar c s ≠ [] := by
  induction s with
  | nil => simp [splitChar]
  | cons a rest ih =>
      rw [splitChar]
      rcases h : splitChar c rest with _ | ⟨g, gs⟩
      · simp
      · by_cases hac : a = c <;> simp [hac]

/-- Splitting conserves length: total group length plus the removed
separators equals the original length. -/
theorem splitChar_length (c : Char) (s : List Char) :
    ((splitChar c s).map List.length).sum + ((splitChar c s).length - 1) =
      s.length := by
  induction s with
  | nil => simp [splitChar]
  | cons a rest ih =>
      rw [splitChar]
      rcases h : splitChar c rest with _ | ⟨g, gs⟩
      · exact absurd h (splitChar_ne_nil c rest)
      · rw [h] at ih
        by_cases hac : a = c <;> simp [hac] at ih ⊢ <;> omega

/-- A string without the separator is a single group. -/
theorem splitChar_of_not_mem (c : Char) (s : List Char) (h : c ∉ s) :
    splitChar c s = [s] := by
  induction s with
  | nil => simp [splitChar]
  | cons a rest ih =>
      have hrest := ih (fun hm => h (List.mem_cons_of_mem _ hm))
      have hac : ¬a = c := fun hac => h (by rw [hac]; exact List.mem_cons_self c rest)
      rw [splitChar, hrest]
      simp [hac]

/-- `toStatePath` (src/src/graph.ts, utils part) on a string id: split on
the delimiter.  (The array branch of the source returns the array
unchanged and is not needed here.) -/
def toStatePath (stateId : String) (delimiter : Char) : List String :=
  (splitChar delimiter stateId.toList).map List.asString

/-- `pathToStateValue` (src/src/graph.ts, utils part): a one-element path
is a bare string; otherwise the marker loop builds a single nested chain
ending in a string leaf. -/
def pathToStateValue : List String → StateValue
  | [] => .obj []
  | [k] => .str k
  | [k, k'] => .obj [(k, .str k')]
  | k :: k' :: k'' :: rest => .obj [(k, pathToStateValue (k' :: k'' :: rest))]

/-- `toStateValue` (src/src/graph.ts, utils part) restricted to state
values: a string is parsed along the delimiter, anything else is returned
unchanged.  (The `State`-instance and array branches of the source do not
apply to state values.) -/
def toStateValue (stateValue : StateValue) (delimiter : Char) : StateValue :=
  match stateValue with
  | .str s => pathToStateValue (toStatePath s delimiter)
  | .obj kvs => .obj kvs

mutual

/-- Termination weight for `matchesState`: strings weigh four times their
length so that re-parsing a dotted leaf never increases the weight. -/
def weight : StateValue → Nat
  | .str s => 4 * s.length + 1
  | .obj kvs => 1 + weightList kvs

/-- Weight of an object association list. -/
def weightList : List (String × StateValue) → Nat
  | [] => 0
  | (_, v) :: rest => 3 + weight v + weightList rest

end

theorem weight_pathToStateValue (ps : List String) (h : ps ≠ []) :
    weight (pathToStateValue ps) ≤
      4 * ((ps.map String.length).sum + (ps.length - 1)) + 1 := by
  match ps with
  | [k] => simp [pathToStateValue, weight]
  | [k, k'] => simp [pathToStateValue, weight, weightList]; omega
  | k :: k' :: k'' :: rest =>
      have ih := weight_pathToStateValue (k' :: k'' :: rest) (by simp)
      rw [pathToStateValue, weight, weightList, weightList]
      simp only [List.map_cons, List.sum_cons, List.length_cons] at ih ⊢
      omega

theorem weight_toStateValue_le (sv : StateValue) :
    weight (toStateValue sv STATE_DELIMITER) ≤ weight sv := by
  rcases sv with s | kvs
  · rw [toStateValue]
    have hne : splitChar STATE_DELIMITER s.toList ≠ [] :=
      splitChar_ne_nil _ _
    have hlen := splitChar_length STATE_DELIMITER s.toList
    have h := weight_pathToStateValue (toStatePath s STATE_DELIMITER)
      (by rw [toStatePath]; simp; exact splitChar_ne_nil _ _)
    refine h.trans ?_
    rw [weight]
    have hmap : ((toStatePath s STATE_DELIMITER).map String.length).sum =
        ((splitChar STATE_DELIMITER s.toList).map List.length).sum := by
      rw [toStatePath, List.map_map]
      rfl
    have hlen2 : (toStatePath s STATE_DELIMITER).length =
        (splitChar STATE_DELIMITER s.toList).length := by
      simp [toStatePath]
    rw [hmap, hlen2]
    have hs : s.length = s.toList.length := rfl
    omega
  · exact Nat.le_of_eq rfl

theorem weight_obj_cons (k' : String) (v' : StateValue)
    (rest : List (String × StateValue)) :
    weight (.obj ((k', v') :: rest)) = 4 + weight v' + weightList rest := by
  rw [weight, weightList]; omega

theorem weight_lookup_lt (kvs : List (String × StateValue)) (k : String)
    (v : StateValue) : lookup kvs k = some v → weight v < weight (.obj kvs) := by
  induction kvs with
  | nil => intro h; simp [lookup] at h
  | cons e rest ih =>
      obtain ⟨k', v'⟩ := e
      intro h
      rw [lookup_cons] at h
      by_cases hk : k' = k
      · rw [if_pos hk] at h
        cases h
        rw [weight_obj_cons]
        omega
      · rw [if_neg hk] at h
        have hlt := ih h
        rw [weight] at hlt
        rw [weight_obj_cons]
        omega

theorem weight_mem_lt (kvs : List (String × StateValue)) (k : String)
    (v : StateValue) : (k, v) ∈ kvs → weight v < weight (.obj kvs) := by
  induction kvs with
  | nil => intro h; simp at h
  | cons e rest ih =>
      obtain ⟨k', v'⟩ := e
      intro h
      rcases List.mem_cons.mp h with h | h
      · cases h
        rw [weight_obj_cons]
        omega
      · have hlt := ih h
        rw [weight] at hlt
        rw [weight_obj_cons]
        omega

/-- Body of `matchesState` on the already-converted pair: equal strings,
key membership for a string pattern against an object, and recursive
per-key matching for two objects (a missing key fails; each recursive call
re-converts its arguments exactly as the source's recursive
`matchesState(parent[key], child[key])` does).  An object pattern never
matches a string value. -/
def matchesStateAux : StateValue → StateValue → Bool
  | .str p, .str c => c == p
  | .obj _, .str _ => false
  | .str p, .obj ckvs => ckvs.any (fun e => e.1 == p)
  | .obj pkvs, .obj ckvs =>
      pkvs.attach.all (fun pe =>
        match hl : lookup ckvs pe.1.1 with
        | none => false
        | some cv =>
            matchesStateAux (toStateValue pe.1.2 STATE_DELIMITER)
              (toStateValue cv STATE_DELIMITER))
  termination_by p c => weight p + weight c
  decreasing_by
    have h1 : weight pe.1.2 < weight (StateValue.obj pkvs) :=
      weight_mem_lt pkvs pe.1.1 pe.1.2 (by simpa using pe.2)
    have h2 : weight cv < weight (StateValue.obj ckvs) :=
      weight_lookup_lt ckvs pe.1.1 cv hl
    have h3 := weight_toStateValue_le pe.1.2
    have h4 := weight_toStateValue_le cv
    omega

/-- `matchesState` (src/src/graph.ts, utils part) at the default
delimiter: convert both arguments, then compare. -/
def matchesState (parentStateId childStateId : StateValue) : Bool :=
  matchesStateAux (toStateValue parentStateId STATE_DELIMITER)
    (toStateValue childStateId STATE_DELIMITER)

mutual

/-- No string leaf of the value contains the delimiter (the spec treats a
key or leaf holding the delimiter as a definition-load error). -/
def delimFree : StateValue → Bool
  | .str s => !(s.toList.contains STATE_DELIMITER)
  | .obj kvs => delimFreeList kvs

/-- All values of an association list are delimiter-free. -/
def delimFreeList : List (String × StateValue) → Bool
  | [] => true
  | (_, v) :: rest => delimFree v && delimFreeList rest

end

theorem delimFreeList_mem (kvs : List (String × StateValue))
    (h : delimFreeList kvs = true) :
    ∀ k sv, (k, sv) ∈ kvs → delimFree sv = true := by
  induction kvs with
  | nil => intro k sv hm; simp at hm
  | cons e rest ih =>
      obtain ⟨k', sv'⟩ := e
      rw [delimFreeList] at h
      simp only [Bool.and_eq_true] at h
      intro k sv hm
      rcases List.mem_cons.mp hm with hm | hm
      · cases hm; exact h.1
      · exact ih h.2 k sv hm

/-- Parsing is the identity on delimiter-free values. -/
theorem toStateValue_of_delimFree (sv : StateValue)
    (h : delimFree sv = true) : toStateValue sv STATE_DELIMITER = sv := by
  rcases sv with s | kvs
  · rw [toStateValue, toStatePath]
    rw [delimFree] at h
    have hnm : STATE_DELIMITER ∉ s.toList := by
      simpa using h
    rw [splitChar_of_not_mem _ _ hnm]
    rfl
  · rfl

theorem sizeOf_val_lt_of_mem (kvs : List (String × StateValue)) (k : String)
    (v : StateValue) (h : (k, v) ∈ kvs) :
    sizeOf v < sizeOf (StateValue.obj kvs) := by
  have h1 := List.sizeOf_lt_of_mem h
  simp at h1 ⊢
  omega

theorem mem_of_lookup_eq_some (kvs : List (String × StateValue))
    (k : String) (v : StateValue) :
    lookup kvs k = some v → (k, v) ∈ kvs := by
  induction kvs with
  | nil => intro h; simp [lookup] at h
  | cons e rest ih =>
      obtain ⟨k', v'⟩ := e
      intro h
      rw [lookup_cons] at h
      by_cases hk : k' = k
      · rw [if_pos hk] at h
        cases h
        exact hk ▸ List.mem_cons_self _ _
      · exact List.mem_cons_of_mem _ (ih (by rwa [if_neg hk] at h))

theorem lookup_eq_some_of_mem_nodup (kvs : List (String × StateValue))
    (hnd : keysNodup kvs = true) (k : String) (v : StateValue)
    (h : (k, v) ∈ kvs) : lookup kvs k = some v := by
  induction kvs with
  | nil => simp at h
  | cons e rest ih =>
      obtain ⟨k', v'⟩ := e
      obtain ⟨hne, hndr⟩ := (keysNodup_cons_iff _ _ _).mp hnd
      rcases List.mem_cons.mp h with h | h
      · cases h
        rw [lookup_cons, if_pos rfl]
      · have hk : k' ≠ k := by
          intro hkk
          exact hne (k, v) h (by rw [hkk])
        rw [lookup_cons, if_neg hk]
        exact ih hndr h

/-- Membership characterization of the leaf paths of a well-formed object
list: each path is a key of the list followed by a leaf path of the
corresponding sub-value. -/
theorem mem_toStatePathsList_iff (kvs : List (String × StateValue))
    (hwfl : wellFormedList kvs = true) (p : List String) :
    p ∈ toStatePathsList kvs ↔
      ∃ k sv, (k, sv) ∈ kvs ∧ ∃ q ∈ toStatePaths sv, p = k :: q := by
  induction kvs with
  | nil => simp [toStatePathsList]
  | cons e rest ih =>
      obtain ⟨k', sv'⟩ := e
      obtain ⟨hwf, hrest⟩ := (wellFormedList_cons_iff _ _ _).mp hwfl
      rw [toStatePathsList_cons_of_wf _ _ _ hwf, List.mem_append,
        ih hrest]
      constructor
      · rintro (hp | ⟨k, sv, hm, q, hq, rfl⟩)
        · simp only [List.mem_map] at hp
          obtain ⟨q, hq, rfl⟩ := hp
          exact ⟨k', sv', List.mem_cons_self _ _, q, hq, rfl⟩
        · exact ⟨k, sv, List.mem_cons_of_mem _ hm, q, hq, rfl⟩
      · rintro ⟨k, sv, hm, q, hq, rfl⟩
        rcases List.mem_cons.mp hm with hm | hm
        · cases hm
          exact Or.inl (List.mem_map.mpr ⟨q, hq, rfl⟩)
        · exact Or.inr ⟨k, sv, hm, q, hq, rfl⟩

theorem matchesState_str_str (p c : String) (hp : delimFree (.str p) = true)
    (hc : delimFree (.str c) = true) :
    matchesState (.str p) (.str c) = (c == p) := by
  rw [matchesState, toStateValue_of_delimFree _ hp,
    toStateValue_of_delimFree _ hc, matchesStateAux]

theorem matchesState_obj_str (pkvs : List (String × StateValue)) (c : String)
    (hc : delimFree (.str c) = true) :
    matchesState (.obj pkvs) (.str c) = false := by
  rw [matchesState, toStateValue_of_delimFree _ hc]
  show matchesStateAux (.obj pkvs) (.str c) = false
  rw [matchesStateAux]

theorem matchesState_str_obj (p : String) (ckvs : List (String × StateValue))
    (hp : delimFree (.str p) = true) :
    matchesState (.str p) (.obj ckvs) = ckvs.any (fun e => e.1 == p) := by
  rw [matchesState, toStateValue_of_delimFree _ hp]
  show matchesStateAux (.str p) (.obj ckvs) = ckvs.any (fun e => e.1 == p)
  rw [matchesStateAux]

theorem matchesState_obj_obj (pkvs ckvs : List (String × StateValue)) :
    matchesState (.obj pkvs) (.obj ckvs) = true ↔
      ∀ k psv, (k, psv) ∈ pkvs →
        ∃ cv, lookup ckvs k = some cv ∧ matchesState psv cv = true := by
  rw [matchesState]
  show matchesStateAux (.obj pkvs) (.obj ckvs) = true ↔ _
  rw [matchesStateAux]
  constructor
  · intro h k psv hm
    have := List.all_eq_true.mp h ⟨(k, psv), hm⟩ (List.mem_attach _ _)
    cases hl : lookup ckvs k with
    | none => rw [hl] at this; simp at this
    | some cv =>
        rw [hl] at this
        exact ⟨cv, rfl, this⟩
  · intro h
    apply List.all_eq_true.mpr
    intro pe _
    obtain ⟨cv, hl, hm⟩ := h pe.1.1 pe.1.2 (by simpa using pe.2)
    rw [hl]
    exact hm

theorem matchesState_iff_prefix_aux (n : Nat) :
    ∀ p : StateValue, sizeOf p ≤ n → ∀ v : StateValue,
      wellFormed p = true → wellFormed v = true →
      delimFree p = true → delimFree v = true →
      (matchesState p v = true ↔
        ∀ pp ∈ toStatePaths p, ∃ vp ∈ toStatePaths v, pp <+: vp) := by
  induction n using Nat.strong_induction_on with
  | _ n ih =>
      intro p hsz v hwp hwv hdp hdv
      rcases p with s | pkvs <;> rcases v with t | ckvs
      · have hs : ¬s = "" := (wellFormed_str_iff s).mp hwp
        have ht : ¬t = "" := (wellFormed_str_iff t).mp hwv
        rw [matchesState_str_str s t hdp hdv]
        constructor
        · intro h pp hpp
          rw [toStatePaths, if_neg hs] at hpp
          simp at hpp h
          subst hpp
          refine ⟨[t], by rw [toStatePaths, if_neg ht]; simp, ?_⟩
          rw [List.cons_prefix_cons]
          exact ⟨h.symm, List.nil_prefix⟩
        · intro h
          obtain ⟨vp, hvp, hpre⟩ := h [s] (by rw [toStatePaths, if_neg hs]; simp)
          rw [toStatePaths, if_neg ht] at hvp
          simp at hvp
          subst hvp
          rw [List.cons_prefix_cons] at hpre
          simp [hpre.1]
      · have hs : ¬s = "" := (wellFormed_str_iff s).mp hwp
        rw [matchesState_str_obj s ckvs hdp]
        obtain ⟨hneC, hndC, hwflC⟩ := (wellFormed_obj_iff _).mp hwv
        constructor
        · intro h pp hpp
          rw [toStatePaths, if_neg hs] at hpp
          simp at hpp
          subst hpp
          simp only [List.any_eq_true] at h
          obtain ⟨⟨k, cv⟩, hm, hk⟩ := h
          simp at hk
          have hwfc := wellFormedList_mem ckvs hwflC k cv hm
          obtain ⟨q₀, hq₀⟩ :=
            List.exists_mem_of_ne_nil _ (toStatePaths_ne_nil cv hwfc)
          refine ⟨k :: q₀, ?_, ?_⟩
          · rw [toStatePaths]
            exact (mem_toStatePathsList_iff ckvs hwflC _).mpr
              ⟨k, cv, hm, q₀, hq₀, rfl⟩
          · rw [List.cons_prefix_cons]
            exact ⟨hk.symm, List.nil_prefix⟩
        · intro h
          obtain ⟨vp, hvp, hpre⟩ := h [s] (by rw [toStatePaths, if_neg hs]; simp)
          rw [toStatePaths] at hvp
          obtain ⟨k, cv, hm, q, hq, rfl⟩ :=
            (mem_toStatePathsList_iff ckvs hwflC _).mp hvp
          rw [List.cons_prefix_cons] at hpre
          simp only [List.any_eq_true]
          exact ⟨(k, cv), hm, by simp [hpre.1]⟩
      · have ht : ¬t = "" := (wellFormed_str_iff t).mp hwv
        rw [matchesState_obj_str pkvs t hdv]
        obtain ⟨hneP, hndP, hwflP⟩ := (wellFormed_obj_iff _).mp hwp
        constructor
        · intro h; simp at h
        · intro h
          exfalso
          obtain ⟨⟨k₀, sv₀⟩, hm₀⟩ := List.exists_mem_of_ne_nil pkvs hneP
          have hwf₀ := wellFormedList_mem pkvs hwflP k₀ sv₀ hm₀
          obtain ⟨q₀, hq₀⟩ :=
            List.exists_mem_of_ne_nil _ (toStatePaths_ne_nil sv₀ hwf₀)
          have hpp : (k₀ :: q₀) ∈ toStatePaths (.obj pkvs) := by
            rw [toStatePaths]
            exact (mem_toStatePathsList_iff pkvs hwflP _).mpr
              ⟨k₀, sv₀, hm₀, q₀, hq₀, rfl⟩
          obtain ⟨vp, hvp, hpre⟩ := h _ hpp
          rw [toStatePaths, if_neg ht] at hvp
          simp at hvp
          subst hvp
          rw [List.cons_prefix_cons] at hpre
          have hq₀nil : q₀ = [] := List.prefix_nil.mp hpre.2
          exact mem_toStatePaths_ne_nil sv₀ hwf₀ q₀ hq₀ hq₀nil
      · rw [matchesState_obj_obj]
        obtain ⟨hneP, hndP, hwflP⟩ := (wellFormed_obj_iff _).mp hwp
        obtain ⟨hneC, hndC, hwflC⟩ := (wellFormed_obj_iff _).mp hwv
        have hdP : delimFreeList pkvs = true := by rwa [delimFree] at hdp
        have hdC : delimFreeList ckvs = true := by rwa [delimFree] at hdv
        constructor
        · intro h pp hpp
          rw [toStatePaths] at hpp
          obtain ⟨k, psv, hm, q, hq, rfl⟩ :=
            (mem_toStatePathsList_iff pkvs hwflP _).mp hpp
          obtain ⟨cv, hlook, hmatch⟩ := h k psv hm
          have hmemc := mem_of_lookup_eq_some ckvs k cv hlook
          have hlt : sizeOf psv < n :=
            lt_of_lt_of_le (sizeOf_val_lt_of_mem pkvs k psv hm) hsz
          have hIH := ih (sizeOf psv) hlt psv le_rfl cv
            (wellFormedList_mem pkvs hwflP k psv hm)
            (wellFormedList_mem ckvs hwflC k cv hmemc)
            (delimFreeList_mem pkvs hdP k psv hm)
            (delimFreeList_mem ckvs hdC k cv hmemc)
          obtain ⟨r, hr, hpre⟩ := (hIH.mp hmatch) q hq
          refine ⟨k :: r, ?_, ?_⟩
          · rw [toStatePaths]
            exact (mem_toStatePathsList_iff ckvs hwflC _).mpr
              ⟨k, cv, hmemc, r, hr, rfl⟩
          · rw [List.cons_prefix_cons]
            exact ⟨rfl, hpre⟩
        · intro h k psv hm
          have hwfp := wellFormedList_mem pkvs hwflP k psv hm
          obtain ⟨q₀, hq₀⟩ :=
            List.exists_mem_of_ne_nil _ (toStatePaths_ne_nil psv hwfp)
          have hpp : (k :: q₀) ∈ toStatePaths (.obj pkvs) := by
            rw [toStatePaths]
            exact (mem_toStatePathsList_iff pkvs hwflP _).mpr
              ⟨k, psv, hm, q₀, hq₀, rfl⟩
          obtain ⟨vp, hvp, hpre⟩ := h _ hpp
          rw [toStatePaths] at hvp
          obtain ⟨k₂, csv, hmc, r, hr, rfl⟩ :=
            (mem_toStatePathsList_iff ckvs hwflC _).mp hvp
          rw [List.cons_prefix_cons] at hpre
          have hlook : lookup ckvs k = some csv := by
            rw [hpre.1]
            exact lookup_eq_some_of_mem_nodup ckvs hndC k₂ csv hmc
          refine ⟨csv, hlook, ?_⟩
          have hmemc := mem_of_lookup_eq_some ckvs k csv hlook
          have hlt : sizeOf psv < n :=
            lt_of_lt_of_le (sizeOf_val_lt_of_mem pkvs k psv hm) hsz
          have hIH := ih (sizeOf psv) hlt psv le_rfl csv
            (wellFormedList_mem pkvs hwflP k psv hm)
            (wellFormedList_mem ckvs hwflC k csv hmemc)
            (delimFreeList_mem pkvs hdP k psv hm)
            (delimFreeList_mem ckvs hdC k csv hmemc)
          apply hIH.mpr
          intro q hq
          have hpp₂ : (k :: q) ∈ toStatePaths (.obj pkvs) := by
            rw [toStatePaths]
            exact (mem_toStatePathsList_iff pkvs hwflP _).mpr
              ⟨k, psv, hm, q, hq, rfl⟩
          obtain ⟨vp₂, hvp₂, hpre₂⟩ := h _ hpp₂
          rw [toStatePaths] at hvp₂
          obtain ⟨k₃, csv₃, hmc₃, r₃, hr₃, rfl⟩ :=
            (mem_toStatePathsList_iff ckvs hwflC _).mp hvp₂
          rw [List.cons_prefix_cons] at hpre₂
          have hcsv : csv₃ = csv := by
            have h₁ := lookup_eq_some_of_mem_nodup ckvs hndC k₃ csv₃ hmc₃
            rw [← hpre₂.1, hlook] at h₁
            exact (Option.some.inj h₁).symm
          exact ⟨r₃, hcsv ▸ hr₃, hpre₂.2⟩

/-! ### Context and assignment (utils part of src/src/graph.ts) -/

/-- Generic JS record lookup (first match). -/
def getProp {V : Type} : List (String × V) → String → Option V
  | [], _ => none
  | (k', v) :: rest, k => if k' = k then some v else getProp rest k

/-- Generic JS property assignment: update in place or append. -/
def setProp {V : Type} : List (String × V) → String → V → List (String × V)
  | [], k, v => [(k, v)]
  | (k', v') :: rest, k, v =>
      if k' = k then (k', v) :: rest else (k', v') :: setProp rest k v

/-- `Object.assign({}, acc, partialUpdate)`: a fresh record with `acc`'s
entries updated in place by the partial record's keys, new keys appended in
the partial record's order. -/
def objAssign {V : Type} (acc partialUpdate : List (String × V)) :
    List (String × V) :=
  partialUpdate.foldl (fun a kv => setProp a kv.1 kv.2) acc

/-- A per-key updater of an assignment map: a literal value or a function
of the running context and the event. -/
inductive PropAssigner (E V : Type) where
  | lit : V → PropAssigner E V
  | fn : (List (String × V) → E → V) → PropAssigner E V

/-- An assignment: a whole-context function returning a partial record, or
a map of per-key updaters. -/
inductive Assigner (E V : Type) where
  | whole : (List (String × V) → E → List (String × V)) → Assigner E V
  | props : List (String × PropAssigner E V) → Assigner E V

/-- An `assign` action object carrying its assignment. -/
structure AssignAction (E V : Type) where
  assignment : Assigner E V

/-- One step of the `assignActions.reduce` loop of `updateContext`:
evaluate the assignment against the running accumulator and merge the
partial result over it. -/
def updateContextStep {E V : Type} (event : E) (acc : List (String × V))
    (act : AssignAction E V) : List (String × V) :=
  let partialUpdate : List (String × V) :=
    match act.assignment with
    | .whole f => f acc event
    | .props m =>
        m.map (fun kv =>
          (kv.1,
           match kv.2 with
           | .lit v => v
           | .fn f => f acc event))
  objAssign acc partialUpdate

/-- `updateContext` (src/src/graph.ts, utils part): an undefined context is
returned unchanged; otherwise the assignment list is reduced left-to-right
from the current context.  (Events are objects, hence always truthy, so the
source's `event || initEvent` guard is the event itself.) -/
def updateContext {E V : Type} (context : Option (List (String × V)))
    (event : E) (assignActions : List (AssignAction E V)) :
    Option (List (String × V)) :=
  match context with
  | none => none
  | some ctx => some (assignActions.foldl (updateContextStep event) ctx)

/-! ### History values (utils part of src/src/graph.ts) -/

/-- A history value: the remembered `current` state value (possibly
undefined) and a record of per-key sub-histories (possibly undefined). -/
inductive HistoryValue where
  | mk : Option StateValue → List (String × Option HistoryValue) → HistoryValue

/-- The `current` field. -/
def HistoryValue.current : HistoryValue → Option StateValue
  | .mk c _ => c

/-- The `states` field. -/
def HistoryValue.states : HistoryValue → List (String × Option HistoryValue)
  | .mk _ s => s

/-- JS `x || y` on possibly-undefined state values (the empty string is
falsy). -/
def jsOrSV (x y : Option StateValue) : Option StateValue :=
  match x with
  | some v => if v.truthy then some v else y
  | none => y

/-- `isString(stateValue) ? undefined : stateValue[key]`. -/
def subValueAt (stateValue : StateValue) (k : String) : Option StateValue :=
  match stateValue with
  | .str _ => none
  | .obj kvs => lookup kvs k

mutual

/-- `updateHistoryStates` (src/src/graph.ts, utils part): map over the
tracked sub-histories; each defined sub-history records the corresponding
sub-value of the new state value, or falls back to its previously
remembered value, dropping entries that resolve to nothing. -/
def updateHistoryStates (hist : HistoryValue) (stateValue : StateValue) :
    List (String × Option HistoryValue) :=
  match hist with
  | .mk _ states => updateHistoryStatesList states stateValue

/-- The `mapValues` loop of `updateHistoryStates`. -/
def updateHistoryStatesList :
    List (String × Option HistoryValue) → StateValue →
      List (String × Option HistoryValue)
  | [], _ => []
  | (k, sub) :: rest, stateValue =>
      (k,
       match sub with
       | none => none
       | some subHist =>
           match jsOrSV (subValueAt stateValue k) subHist.current with
           | none => none
           | some sv =>
               if sv.truthy then
                 some (.mk (some sv) (updateHistoryStates subHist sv))
               else none) ::
        updateHistoryStatesList rest stateValue

end

/-- `updateHistoryValue` (src/src/graph.ts, utils part): remember the new
state value as current and update every tracked subtree. -/
def updateHistoryValue (hist : HistoryValue) (stateValue : StateValue) :
    HistoryValue :=
  .mk (some stateValue) (updateHistoryStates hist stateValue)

/-! ### Events and action builders (src/unnamed/part_000, actions.ts) -/

/-- A JavaScript value in event position: a string, a number, an object
whose `type` property is a string or missing, or null/undefined. -/
inductive JSEvent where
  | str : String → JSEvent
  | num : Int → JSEvent
  | obj : Option String → JSEvent
  | nullish : JSEvent
deriving DecidableEq

/-- `getEventType` (src/src/graph.ts, utils part): strings and numbers are
stringified; otherwise the `type` property is read.  Only a property access
on null/undefined throws (and is re-thrown with the source's message); an
object without a string `type` yields undefined without error. -/
def getEventType : JSEvent → Except String (Option String)
  | .str s => .ok (some s)
  | .num n => .ok (some (toString n))
  | .obj t => .ok t
  | .nullish =>
      .error "Events must be strings or objects with a string event.type property."

namespace ActionTypes

/-- Modelled from the spec: the `ActionTypes` enum lives in types.ts, which
is not part of this source snapshot; the spec fixes the done-state event
prefix as `done.state.`. -/
def DoneState : String := "done.state"

/-- Modelled from the spec: the delayed-event prefix `xstate.after(N)`. -/
def After : String := "xstate.after"

/-- Modelled from the spec: built-in action types use the reserved prefix
`xstate.`. -/
def send : String := "xstate.send"

/-- Modelled from the spec: the cancel action type. -/
def cancel : String := "xstate.cancel"

/-- Modelled from the spec: the log action type. -/
def log : String := "xstate.log"

/-- Modelled from the spec: the assign action type. -/
def assign : String := "xstate.assign"

end ActionTypes

/-- A done event object; `toStr` is the return value of the `toString`
method the source installs on the event. -/
structure DoneEventObject where
  type : String
  data : Option String
  toStr : String

/-- `done` (src/unnamed/part_000): the synthetic event
`done.state.<id>`, whose `toString` also yields that type. -/
def done (id : String) (data : Option String) : DoneEventObject :=
  let type := ActionTypes.DoneState ++ "." ++ id
  { type := type, data := data, toStr := type }

/-- `after` (src/unnamed/part_000): the generated delayed-event id
`xstate.after(N)#id`, with the `#id` suffix dropped when `id` is absent
(or, being falsy in JS, empty). -/
def after (delayRef : Int) (id : Option String) : String :=
  let idSuffix : String :=
    match id with
    | some i => if i ≠ "" then "#" ++ i else ""
    | none => ""
  ActionTypes.After ++ "(" ++ toString delayRef ++ ")" ++ idSuffix

/-- Modelled from the spec: `toEventObject` lives in the part of utils.ts
missing from this snapshot; per the spec an event descriptor is either a
string type or a record `{ type, ...payload }`, so a string or number is
wrapped into an object with that type. -/
def toEventObject : JSEvent → JSEvent
  | .str s => .obj (some s)
  | .num n => .obj (some (toString n))
  | e => e

/-- Options accepted by `send`. -/
structure SendActionOptions where
  «to» : Option String
  delay : Option Int
  id : Option String

/-- A resolved send action object. -/
structure SendActionObj where
  «to» : Option String
  type : String
  event : JSEvent
  delay : Option Int
  id : Option String

/-- `send` (src/unnamed/part_000) for non-function events: the id is the
explicit option id when given, otherwise the event's type; resolving the
type of a null/undefined event throws. -/
def send (event : JSEvent) (options : Option SendActionOptions) :
    Except String SendActionObj :=
  match getEventType event with
  | .error msg => .error msg
  | .ok t =>
      .ok
        { «to» := options.bind (fun o => o.«to»)
          type := ActionTypes.send
          event := toEventObject event
          delay := options.bind (fun o => o.delay)
          id :=
            match options with
            | some o => match o.id with | some i => some i | none => t
            | none => t }

/-- A cancel action object. -/
structure CancelAction where
  type : String
  sendId : String

/-- `cancel` (src/unnamed/part_000). -/
def cancel (sendId : String) : CancelAction :=
  { type := ActionTypes.cancel, sendId := sendId }

/-- A log action object; `expr` is evaluated against context and event. -/
structure LogAction (E V R : Type) where
  type : String
  label : Option String
  expr : List (String × V) → E → R

/-- `log` (src/unnamed/part_000). -/
def log {E V R : Type} (expr : List (String × V) → E → R)
    (label : Option String) : LogAction E V R :=
  { type := ActionTypes.log, label := label, expr := expr }

/-- `assign` (src/unnamed/part_000). -/
def assign {E V : Type}
    (assignment : Assigner E V) : AssignAction E V :=
  { assignment := assignment }

/-- Modelled from the spec: the interpreter's table of outstanding delayed
sends, keyed by send id (§4.6, §5); executing a send action appends its id
and event. -/
def schedulePending (q : List (Option String × JSEvent))
    (a : SendActionObj) : List (Option String × JSEvent) :=
  q ++ [(a.id, a.event)]

/-- Modelled from the spec: `cancel(id)` nullifies any not-yet-delivered
send with the matching id (§4.6). -/
def applyCancel (q : List (Option String × JSEvent)) (a : CancelAction) :
    List (Option String × JSEvent) :=
  q.filter (fun e => e.1 ≠ some a.sendId)

/-! ### Spec-modelled stepper and interpreter fragments -/

/-- Modelled from the spec: a configuration (§3) — `StateNode.transition`
and the `State` class live in StateNode.ts/State.ts, which are not part of
this source snapshot.  A configuration carries the state value, the
context, the event that produced it, the step's action list and the
`changed` flag. -/
structure Configuration (E A : Type) where
  value : StateValue
  context : List (String × Int)
  event : E
  actions : List A
  changed : Bool

/-- Modelled from the spec: a machine as its transition selector (§4.4) —
for a value and an event, the selected target and transition actions, if
any — together with its eventless (`always`) transitions (§4.5). -/
structure SpecMachine (E A : Type) where
  select : StateValue → E → Option (StateValue × List A)
  eventless : StateValue → Option (StateValue × List A)

/-- Modelled from the spec: the configuration stepper (§4.5) — when the
selector finds a transition (or an eventless transition is enabled) the
stepper produces the new value, the action list, and
`changed = (value ≠ prior.value) ∨ (actions ≠ ∅)`; when neither applies it
returns a configuration equal to the prior one except that `event` is
updated and `changed = false` (§4.5 last paragraph). -/
def transition {E A : Type} (m : SpecMachine E A)
    (c : Configuration E A) (e : E) : Configuration E A :=
  match m.select c.value e with
  | some (target, acts) =>
      { value := target, context := c.context, event := e, actions := acts,
        changed := decide (target ≠ c.value) || !acts.isEmpty }
  | none =>
      match m.eventless c.value with
      | some (target, acts) =>
          { value := target, context := c.context, event := e,
            actions := acts,
            changed := decide (target ≠ c.value) || !acts.isEmpty }
      | none =>
          { value := c.value, context := c.context, event := e,
            actions := c.actions, changed := false }

/-- The flat traffic-light machine of the interpreter tests
(src/unnamed/part_001): green → yellow → red → green on `TIMER`, with no
eventless transitions. -/
def lightMachine : SpecMachine String String :=
  { select := fun v e =>
      match v, e with
      | .str "green", "TIMER" => some (.str "yellow", [])
      | .str "yellow", "TIMER" => some (.str "red", [])
      | .str "red", "TIMER" => some (.str "green", [])
      | _, _ => none
    eventless := fun _ => none }

/-- The assignment of the log-machine test (src/unnamed/part_001):
`assign({ count: ctx => ctx.count + 1 })`, built with the source's
`assign`. -/
def logMachineAssign : AssignAction String Int :=
  assign (.props [("count", .fn (fun ctx _ => (getProp ctx "count").getD 0 + 1))])

/-- The log action of the log-machine test (src/unnamed/part_001):
`log(ctx => ctx)`, built with the source's `log`. -/
def logMachineLog : LogAction String Int (List (String × Int)) :=
  log (fun ctx _ => ctx) none

/-- Modelled from the spec: one interpreter step of the log machine — the
interpreter itself is not part of this source snapshot.  Per §4.5 the
`assign` actions of the step are folded into the context first (via the
source's `updateContext`) and the `log` expression is then resolved
against the new context (§4.5 step 5); the logger receives the resolved
value. -/
def logMachineStep (s : List (String × Int) × List (List (String × Int)))
    (e : String) : List (String × Int) × List (List (String × Int)) :=
  if e = "LOG" then
    let newCtx := (updateContext (some s.1) e [logMachineAssign]).getD s.1
    (newCtx, s.2 ++ [logMachineLog.expr newCtx e])
  else s

/-- The started log-machine service: context `{count: 0}` and an empty
logger. -/
def logMachineInit : List (String × Int) × List (List (String × Int)) :=
  ([("count", 0)], [])


/-- Unfolding of the `mapValues` loop at a cons cell. -/
theorem updateHistoryStatesList_cons (k' : String)
    (sub' : Option HistoryValue)
    (rest : List (String × Option HistoryValue)) (v : StateValue) :
    updateHistoryStatesList ((k', sub') :: rest) v =
      (k',
       match sub' with
       | none => none
       | some subHist =>
           match jsOrSV (subValueAt v k') subHist.current with
           | none => none
           | some sv =>
               if sv.truthy then
                 some (HistoryValue.mk (some sv)
                   (updateHistoryStates subHist sv))
               else none) :: updateHistoryStatesList rest v := by
  rw [updateHistoryStatesList.eq_def]

/-- Each tracked sub-history contributes its updated entry to the mapped
history states. -/
theorem mem_updateHistoryStatesList
    (states : List (String × Option HistoryValue)) (v : StateValue)
    (k : String) (subHist : HistoryValue)
    (h : (k, some subHist) ∈ states) :
    (k,
     match jsOrSV (subValueAt v k) subHist.current with
     | none => none
     | some sv =>
         if sv.truthy then
           some (HistoryValue.mk (some sv) (updateHistoryStates subHist sv))
         else none) ∈ updateHistoryStatesList states v := by
  induction states with
  | nil => simp at h
  | cons e rest ih =>
      obtain ⟨k', sub'⟩ := e
      rw [updateHistoryStatesList_cons]
      rcases List.mem_cons.mp h with h | h
      · cases h
        exact List.mem_cons_self _ _
      · exact List.mem_cons_of_mem _ (ih h)

/-! ### Claim theorems -/

/-- Claim C1: for every configuration `c` and event `E` such that no
transition of the machine matches `E` and no eventless transitions are
enabled, `transition(c, E)` returns a configuration equal to `c` except
that its `event` field is updated and its `changed` flag is false; in
particular `transition(c, E).value = c.value`. -/
theorem transition_unmatched_frame {E A : Type} (m : SpecMachine E A)
    (c : Configuration E A) (e : E)
    (h1 : m.select c.value e = none) (h2 : m.eventless c.value = none) :
    transition m c e =
      { value := c.value, context := c.context, event := e,
        actions := c.actions, changed := false } ∧
    (transition m c e).value = c.value := by
  simp [transition, h1, h2]

/-- Witness for C1: the light machine in its initial `green` state has no
transition on `SOME_EVENT`, so the configuration is unchanged except for
the event and the cleared `changed` flag. -/
theorem transition_unmatched_frame_witness :
    lightMachine.select (.str "green") "SOME_EVENT" = none ∧
    lightMachine.eventless (.str "green") = none ∧
    transition lightMachine
        ⟨.str "green", [], "xstate.init", [], false⟩ "SOME_EVENT" =
      ⟨.str "green", [], "SOME_EVENT", [], false⟩ :=
  ⟨by decide, rfl,
    (transition_unmatched_frame lightMachine
      ⟨.str "green", [], "xstate.init", [], false⟩ "SOME_EVENT"
      (by decide) rfl).1⟩

/-- Claim C2: for every well-formed state value `v`,
`pathsToStateValue (toStatePaths v)` is structurally equal to `v`. -/
theorem paths_roundtrip (v : StateValue) (h : wellFormed v = true) :
    pathsToStateValue (toStatePaths v) = v :=
  pathsToStateValue_toStatePaths v h

/-- Witness for C2: the round trip on the parallel value
`{red: "walk", bold: "on"}`. -/
theorem paths_roundtrip_witness :
    wellFormed (.obj [("red", .str "walk"), ("bold", .str "on")]) = true ∧
    pathsToStateValue
        (toStatePaths (.obj [("red", .str "walk"), ("bold", .str "on")])) =
      .obj [("red", .str "walk"), ("bold", .str "on")] :=
  ⟨by decide, paths_roundtrip _ (by decide)⟩

/-- Claim C3: for well-formed, delimiter-free pattern and value,
`matchesState(pattern, value)` is true iff every leaf path of the pattern
is a prefix of some leaf path of the value (prefix in every region); in
particular `matchesState("red", {red: "walk"})` is true and
`matchesState({red: "walk"}, "red")` is false. -/
theorem matchesState_prefix (p v : StateValue)
    (hwp : wellFormed p = true) (hwv : wellFormed v = true)
    (hdp : delimFree p = true) (hdv : delimFree v = true) :
    (matchesState p v = true ↔
      ∀ pp ∈ toStatePaths p, ∃ vp ∈ toStatePaths v, pp <+: vp) ∧
    matchesState (.str "red") (.obj [("red", .str "walk")]) = true ∧
    matchesState (.obj [("red", .str "walk")]) (.str "red") = false := by
  refine ⟨matchesState_iff_prefix_aux (sizeOf p) p le_rfl v hwp hwv hdp hdv,
    ?_, ?_⟩
  · rw [matchesState_str_obj _ _ (by decide)]
    decide
  · rw [matchesState_obj_str _ _ (by decide)]

/-- Witness for C3: the pattern `"red"` against the value `{red: "walk"}`. -/
theorem matchesState_prefix_witness :
    wellFormed (.str "red") = true ∧
    wellFormed (.obj [("red", .str "walk")]) = true ∧
    delimFree (.str "red") = true ∧
    delimFree (.obj [("red", .str "walk")]) = true ∧
    ((matchesState (.str "red") (.obj [("red", .str "walk")]) = true ↔
        ∀ pp ∈ toStatePaths (.str "red"),
          ∃ vp ∈ toStatePaths (.obj [("red", .str "walk")]), pp <+: vp) ∧
      matchesState (.str "red") (.obj [("red", .str "walk")]) = true ∧
      matchesState (.obj [("red", .str "walk")]) (.str "red") = false) :=
  ⟨by decide, by decide, by decide, by decide,
    matchesState_prefix (.str "red") (.obj [("red", .str "walk")])
      (by decide) (by decide) (by decide) (by decide)⟩

/-- Claim C4: `updateContext(ctx, event, assigns)` folds the assignment
list left-to-right; a whole-context assignment function is applied to the
running accumulator and its partial result merged over it, and a per-key
assignment map evaluates each updater (function or literal) against the
running accumulator, merging the resulting partial record. -/
theorem updateContext_fold_spec {E V : Type} :
    (∀ (ctx : List (String × V)) (e : E),
      updateContext (some ctx) e ([] : List (AssignAction E V)) = some ctx) ∧
    (∀ (ctx : List (String × V)) (e : E) (a : AssignAction E V)
        (rest : List (AssignAction E V)),
      updateContext (some ctx) e (a :: rest) =
        updateContext (updateContext (some ctx) e [a]) e rest) ∧
    (∀ (ctx : List (String × V)) (e : E)
        (f : List (String × V) → E → List (String × V)),
      updateContext (some ctx) e [⟨.whole f⟩] =
        some (objAssign ctx (f ctx e))) ∧
    (∀ (ctx : List (String × V)) (e : E)
        (m : List (String × PropAssigner E V)),
      updateContext (some ctx) e [⟨.props m⟩] =
        some (objAssign ctx (m.map (fun kv =>
          (kv.1, match kv.2 with | .lit v => v | .fn g => g ctx e))))) :=
  ⟨fun _ _ => rfl, fun _ _ _ _ => rfl, fun _ _ _ => rfl, fun _ _ _ => rfl⟩

/-- Claim C5: in the machine with context `{count: 0}` whose `LOG` event
fires `[assign(count = count+1), log(ctx => ctx)]`, after a started
service receives two `LOG` events the logger has received exactly
`[{count: 1}, {count: 2}]` in that order. -/
theorem logMachine_two_logs :
    (logMachineStep (logMachineStep logMachineInit "LOG") "LOG").2 =
      [[("count", 1)], [("count", 2)]] ∧
    (logMachineStep (logMachineStep logMachineInit "LOG") "LOG").1 =
      [("count", 2)] := by
  decide

/-- Claim C6: `updateHistoryValue(hist, v)` records `v` as the current
remembered value and, for each tracked subtree, records the corresponding
subvalue of `v`, falling back to the previously remembered value for
subtrees absent from `v`. -/
theorem updateHistoryValue_records (hist : HistoryValue) (v : StateValue) :
    (updateHistoryValue hist v).current = some v ∧
    (∀ k subHist sub, (k, some subHist) ∈ hist.states →
      subValueAt v k = some sub → sub.truthy = true →
      (k, some (HistoryValue.mk (some sub)
          (updateHistoryStates subHist sub))) ∈
        (updateHistoryValue hist v).states) ∧
    (∀ k subHist cur, (k, some subHist) ∈ hist.states →
      subValueAt v k = none → subHist.current = some cur →
      cur.truthy = true →
      (k, some (HistoryValue.mk (some cur)
          (updateHistoryStates subHist cur))) ∈
        (updateHistoryValue hist v).states) := by
  obtain ⟨cur0, states0⟩ := hist
  refine ⟨rfl, ?_, ?_⟩
  · intro k subHist sub hm hsv htr
    have hmem := mem_updateHistoryStatesList states0 v k subHist hm
    rw [hsv] at hmem
    simp only [jsOrSV, htr, if_true] at hmem
    simpa [updateHistoryValue, updateHistoryStates, HistoryValue.states,
      htr] using hmem
  · intro k subHist cur hm hsv hcur htr
    have hmem := mem_updateHistoryStatesList states0 v k subHist hm
    rw [hsv, hcur] at hmem
    simp only [jsOrSV] at hmem
    simpa [updateHistoryValue, updateHistoryStates, HistoryValue.states,
      htr] using hmem

/-- Witness for C6: a history tracking `method` (remembered `check`) and
`other` (remembered `x`), updated with the value `{method: "cash"}`: the
`method` subtree records `cash`, and the `other` subtree, absent from the
value, keeps its remembered `x`. -/
theorem updateHistoryValue_records_witness :
    ("method", some (HistoryValue.mk (some (.str "check")) [])) ∈
      (HistoryValue.mk none
        [("method", some (HistoryValue.mk (some (.str "check")) [])),
         ("other", some (HistoryValue.mk (some (.str "x")) []))]).states ∧
    subValueAt (.obj [("method", .str "cash")]) "method" =
      some (.str "cash") ∧
    ("method", some (HistoryValue.mk (some (.str "cash"))
        (updateHistoryStates (HistoryValue.mk (some (.str "check")) [])
          (.str "cash")))) ∈
      (updateHistoryValue
        (HistoryValue.mk none
          [("method", some (HistoryValue.mk (some (.str "check")) [])),
           ("other", some (HistoryValue.mk (some (.str "x")) []))])
        (.obj [("method", .str "cash")])).states ∧
    ("other", some (HistoryValue.mk (some (.str "x"))
        (updateHistoryStates (HistoryValue.mk (some (.str "x")) [])
          (.str "x")))) ∈
      (updateHistoryValue
        (HistoryValue.mk none
          [("method", some (HistoryValue.mk (some (.str "check")) [])),
           ("other", some (HistoryValue.mk (some (.str "x")) []))])
        (.obj [("method", .str "cash")])).states :=
  ⟨List.mem_cons_self _ _, rfl,
    (updateHistoryValue_records _ _).2.1 "method"
      (HistoryValue.mk (some (.str "check")) []) (.str "cash")
      (List.mem_cons_self _ _) rfl rfl,
    (updateHistoryValue_records _ _).2.2 "other"
      (HistoryValue.mk (some (.str "x")) []) (.str "x")
      (List.mem_cons_of_mem _ (List.mem_cons_self _ _)) rfl rfl rfl⟩

/-- Claim C7: `done(id)` returns an event object whose type is exactly
`done.state.` followed by `id`, and whose `toString` yields that same
type. -/
theorem done_type_spec (id : String) (data : Option String) :
    (done id data).type = "done.state." ++ id ∧
    (done id data).toStr = "done.state." ++ id ∧
    (done id data).data = data :=
  ⟨rfl, rfl, rfl⟩

/-- Claim C8: `after(N, id)` is a pure function of its two arguments —
equal arguments give the identical event-id string — of the form
`xstate.after(N)#id`, and `xstate.after(N)` when `id` is absent. -/
theorem after_stable_form :
    (∀ (n₁ n₂ : Int) (i₁ i₂ : Option String), n₁ = n₂ → i₁ = i₂ →
      after n₁ i₁ = after n₂ i₂) ∧
    (∀ (n : Int) (i : String), i ≠ "" →
      after n (some i) = "xstate.after(" ++ toString n ++ ")" ++ "#" ++ i) ∧
    (∀ n : Int, after n none = "xstate.after(" ++ toString n ++ ")") := by
  refine ⟨?_, ?_, ?_⟩
  · intro n₁ n₂ i₁ i₂ hn hi
    rw [hn, hi]
  · intro n i hi
    simp only [after, ActionTypes.After, if_pos hi, ne_eq]
    rw [← String.append_assoc]
    simp [hi]
  · intro n
    simp [after, ActionTypes.After]

/-- Witness for C8: `after(10, "light")` is the stable id
`xstate.after(10)#light`. -/
theorem after_stable_form_witness :
    ("light" : String) ≠ "" ∧
    after 10 (some "light") =
      "xstate.after(" ++ toString (10 : Int) ++ ")" ++ "#" ++ "light" :=
  ⟨by decide, after_stable_form.2.1 10 "light" (by decide)⟩

/-- Counterexample to C9 as stated: the plain object `{}` is neither a
string nor an object with a string `type` property, yet `getEventType`
does not throw — it returns the object's undefined `type` field. -/
theorem getEventType_plain_object_no_throw :
    getEventType (.obj none) = .ok none ∧
    (∀ msg, getEventType (.obj none) ≠ .error msg) :=
  ⟨rfl, fun _ h => by cases h⟩

/-- Claim C9 (amended): resolving the event type throws exactly when the
input is null or undefined (only then does the property access throw); an
object without a string `type` yields its undefined `type` field and a
number yields its decimal string, both without error. -/
theorem getEventType_throws_iff (e : JSEvent) :
    ((∃ msg, getEventType e = .error msg) ↔ e = .nullish) ∧
    getEventType (.obj none) = .ok none ∧
    (∀ n : Int, getEventType (.num n) = .ok (some (toString n))) := by
  refine ⟨?_, rfl, fun _ => rfl⟩
  cases e <;> simp [getEventType]

/-- Claim C10: for a non-function event `e` with a string type and options
that do not specify an id, `send(e, options)` returns a send action whose
id is the event's type; consequently `cancel` at that type removes the
pending send from the interpreter's table. -/
theorem send_default_id_cancel (e : JSEvent) (t : String)
    (opts : Option SendActionOptions)
    (ht : getEventType e = .ok (some t))
    (hid : opts = none ∨ ∃ o, opts = some o ∧ o.id = none) :
    ∃ act, send e opts = .ok act ∧ act.id = some t ∧
      applyCancel (schedulePending [] act) (cancel t) = [] := by
  rcases hid with rfl | ⟨o, rfl, hoid⟩
  · refine ⟨{ «to» := none, type := ActionTypes.send,
              event := toEventObject e, delay := none, id := some t },
      ?_, rfl, ?_⟩
    · simp [send, ht]
    · simp [schedulePending, applyCancel, cancel]
  · refine ⟨{ «to» := o.«to», type := ActionTypes.send,
              event := toEventObject e, delay := o.delay, id := some t },
      ?_, rfl, ?_⟩
    · simp [send, ht, hoid]
    · simp [schedulePending, applyCancel, cancel]

/-- Witness for C10: sending the string event `TIMER` with no options
yields a send action with id `TIMER`, and `cancel("TIMER")` empties the
pending table holding it — the light machine's `cancel('TIMER')`
scenario. -/
theorem send_default_id_cancel_witness :
    getEventType (.str "TIMER") = .ok (some "TIMER") ∧
    (∃ act, send (.str "TIMER") none = .ok act ∧ act.id = some "TIMER" ∧
      applyCancel (schedulePending [] act) (cancel "TIMER") = []) :=
  ⟨rfl, send_default_id_cancel (.str "TIMER") "TIMER" none rfl (Or.inl rfl)⟩

end Estado
